import Mathlib

/-!
Shallow embedding of the repository's singly linked `ForwardList<T>` container
(three near-duplicate variants: `src/main.cpp`, `src/unnamed/part_000`,
`src/unnamed/part_001`).

The heap chain is modelled as a list of `(node id, value)` pairs in link
order: the `next` pointer of a node is the following entry, absent for the
last entry.  The raw back-pointer `tail_` is kept explicitly as an
`Option Nat` (the node id it holds, `none` for `nullptr`), because several
operations manipulate it independently of the chain — in particular the
defaulted move operations of `main.cpp` copy it rather than reset it.
`fresh` is the allocator's next node id: real node addresses of live nodes
are distinct, which the model renders as strictly increasing ids.
-/

namespace FLModel

/-- The state of a `ForwardList<T>` object: `chain` is the node sequence
owned through `head_` (empty list = `head_ == nullptr`), `tail` the raw
`tail_` pointer, `fresh` the allocator's next free node id. -/
structure FL (α : Type) where
  chain : List (Nat × α)
  tail : Option Nat
  fresh : Nat

namespace FL

variable {α : Type}

/-- The default constructor: `head_{nullptr}`, `tail_{nullptr}`. -/
def empty : FL α := ⟨[], none, 0⟩

/-- The element sequence a traversal from `begin()` to `end()` yields. -/
def toList (l : FL α) : List α := l.chain.map Prod.snd

/-- The ids (addresses) of the nodes the list owns. -/
def ids (l : FL α) : List Nat := l.chain.map Prod.fst

/-- Spec invariants 1 and 2: `tail_` is null iff `head_` is null, and when
the chain is non-empty `tail_` denotes its unique last node. -/
def tailInv (l : FL α) : Prop := l.tail = l.chain.getLast?.map Prod.fst

/-- `push_back` via `append_node` (`main.cpp` lines 170-183) / `append`
(`part_000` lines 98-101): allocate one node; if `head_` is null it becomes
both head and tail, otherwise it is linked after `tail_` (the last node,
by the tail invariant) and `tail_` is updated to it. -/
def push (l : FL α) (v : α) : FL α :=
  ⟨l.chain ++ [(l.fresh, v)], some l.fresh, l.fresh + 1⟩

/-- A sequence of `push_back` calls in order. -/
def pushAll (l : FL α) (vs : List α) : FL α := vs.foldl push l

/-- Phase 1 of `remove(const T&)` (`main.cpp` lines 75-80): the
`while (head_ && head_->data == value)` loop unlinking matching head nodes;
carries the `erased` flag. -/
def removeHead [DecidableEq α] (v : α) : List (Nat × α) → Bool → List (Nat × α) × Bool
  | [], e => ([], e)
  | (i, x) :: t, e => if x = v then removeHead v t true else ((i, x) :: t, e)

/-- Phase 2 of `remove(const T&)` (`main.cpp` lines 88-103): the
`prev`/`curr` walk unlinking every later matching node without advancing
`prev` over a removal.  Given the node `prev` denotes and the chain after
it, returns the surviving chain after `prev`, the final value of `prev`
(written to `tail_` on line 104) and the `erased` flag. -/
def removeWalk [DecidableEq α] (v : α) : Nat × α → List (Nat × α) → Bool → List (Nat × α) × Nat × Bool
  | prev, [], e => ([], prev.1, e)
  | prev, (i, x) :: t, e =>
      if x = v then removeWalk v prev t true
      else
        let r := removeWalk v (i, x) t e
        ((i, x) :: r.1, r.2)

/-- `remove(const T&)` of `main.cpp` (lines 70-105): strip matching head
nodes; if the list emptied reset `tail_` and return; otherwise walk the
rest with `prev`/`curr` and finally set `tail_ = prev`. -/
def remove [DecidableEq α] (l : FL α) (v : α) : Bool × FL α :=
  match removeHead v l.chain false with
  | ([], e) => (e, ⟨[], none, l.fresh⟩)
  | ((i, x) :: t, e) =>
      let r := removeWalk v (i, x) t e
      (r.2.2, ⟨(i, x) :: r.1, some r.2.1, l.fresh⟩)

/-- Phase 2 of `remove(const T&)` in `part_000` (lines 68-81): same
`prev`/`curr` walk, but `tail_` is updated in place by
`if (cur == tail_) tail_ = prev;` instead of being rewritten at the end;
carries the current `tail_` value. -/
def removeWalkP0 [DecidableEq α] (v : α) : Nat × α → List (Nat × α) → Option Nat → Bool → List (Nat × α) × Option Nat × Bool
  | _, [], tl, e => ([], tl, e)
  | prev, (i, x) :: t, tl, e =>
      if x = v then removeWalkP0 v prev t (if some i = tl then some prev.1 else tl) true
      else
        let r := removeWalkP0 v (i, x) t tl e
        ((i, x) :: r.1, r.2)

/-- `remove(const T&)` of `part_000` (lines 64-83): same head phase, then
the walk with the in-place `tail_` fix-up. -/
def removeP0 [DecidableEq α] (l : FL α) (v : α) : Bool × FL α :=
  match removeHead v l.chain false with
  | ([], e) => (e, ⟨[], none, l.fresh⟩)
  | ((i, x) :: t, e) =>
      let r := removeWalkP0 v (i, x) t l.tail e
      (r.2.2, ⟨(i, x) :: r.1, r.2.1, l.fresh⟩)

/-- `remove(const T&)` of `part_001` (lines 51-76): `prev`/`curr` walk that
unlinks only the FIRST matching node and returns `true` immediately; on
`prev->next` becoming null `tail_ = prev`, on `head_` becoming null
`tail_ = nullptr`, otherwise `tail_` is untouched.  `prev` is `none` while
`curr` is still the head node. -/
def remove1Walk [DecidableEq α] (v : α) (tl : Option Nat) : Option (Nat × α) → List (Nat × α) → Bool × List (Nat × α) × Option Nat
  | _, [] => (false, [], tl)
  | prev, (i, x) :: t =>
      if x = v then
        (true, t, if t.isEmpty then prev.map Prod.fst else tl)
      else
        let r := remove1Walk v tl (some (i, x)) t
        (r.1, (i, x) :: r.2.1, r.2.2)

/-- `remove(const T&)` of `part_001` assembled on the list state. -/
def remove1 [DecidableEq α] (l : FL α) (v : α) : Bool × FL α :=
  let r := remove1Walk v l.tail none l.chain
  (r.1, ⟨r.2.1, r.2.2, l.fresh⟩)

/-- `clear()` of `main.cpp` (line 121) and `part_001` (line 89):
`head_.reset(); tail_ = nullptr;` — the chain is released and both
pointers end null.  The release happens through `Node`'s implicit
destructor chain, see `resetFrames`. -/
def clear (l : FL α) : FL α := ⟨[], none, l.fresh⟩

/-- The node-destructor nesting `head_.reset()` incurs: destroying a node
destroys its owned `next` chain before its own destructor frame returns,
so tearing down an n-node chain keeps n frames live at the deepest point. -/
def resetFrames : List (Nat × α) → Nat
  | [] => 0
  | _ :: t => resetFrames t + 1

/-- `clear()` of `part_000` (lines 87-90): the explicit
`while (head_)` loop detaching and deleting one node per iteration, then
`tail_ = nullptr`. -/
def clearLoop : List (Nat × α) → List (Nat × α)
  | [] => []
  | _ :: t => clearLoop t

/-- `part_000` `clear()` on the list state. -/
def clearIter (l : FL α) : FL α := ⟨clearLoop l.chain, none, l.fresh⟩

/-- The copy constructor (`main.cpp` line 49, `part_000` line 21):
default-construct, then `push_back` every element of `other` in iteration
order.  `base` is the allocator's next free node id at the moment of the
copy; live nodes of other lists have smaller ids. -/
def copyCtor (src : FL α) (base : Nat) : FL α :=
  pushAll ⟨[], none, base⟩ src.toList

/-- The copy assignment (`main.cpp` lines 50-58, `part_000` lines 22-25):
guarded by the identity test `this != &other`; when not self, `clear()`
then `push_back` every element of `other`.  `isSelf` models the identity
test, `base` the allocator state as in `copyCtor`. -/
def copyAssign (dst src : FL α) (isSelf : Bool) (base : Nat) : FL α :=
  if isSelf then dst else pushAll ⟨[], none, base⟩ src.toList

/-- The defaulted move constructor of `main.cpp` (line 59): memberwise
move — `head_` (a `unique_ptr`) transfers and becomes null in the source,
but `tail_` is a raw pointer, so it is merely copied and KEEPS its value
in the source.  Returns (destination, moved-from source). -/
def moveCtorMain (a : FL α) : FL α × FL α :=
  (⟨a.chain, a.tail, a.fresh⟩, ⟨[], a.tail, a.fresh⟩)

/-- The defaulted move assignment of `main.cpp` (line 60), non-self case:
`head_` move-assigns (releasing the destination's old chain), `tail_` is
copied; the source keeps its `tail_` value. -/
def moveAssignMain (dst src : FL α) : FL α × FL α :=
  (⟨src.chain, src.tail, dst.fresh⟩, ⟨[], src.tail, src.fresh⟩)

/-- The move constructor of `part_000` (line 26): steals `head_` and
`tail_` and sets both to null in the source. -/
def moveCtorP0 (a : FL α) : FL α × FL α :=
  (⟨a.chain, a.tail, a.fresh⟩, ⟨[], none, a.fresh⟩)

/-- The move assignment of `part_000` (lines 27-30): guarded by the
identity test `this != &other` (modelled by `isSelf`); when not self,
`clear()` the destination then steal `head_`/`tail_`, nulling both in the
source.  Returns (destination, source). -/
def moveAssignP0 (dst src : FL α) (isSelf : Bool) : FL α × FL α :=
  if isSelf then (dst, src)
  else (⟨src.chain, src.tail, dst.fresh⟩, ⟨[], none, src.fresh⟩)

/-- The loop body of `contains` (`main.cpp` lines 114-119). -/
def containsLoop [DecidableEq α] (v : α) : List α → Bool
  | [] => false
  | x :: t => if x = v then true else containsLoop v t

/-- `contains(const T&)`: linear scan with the element equality. -/
def containsV [DecidableEq α] (l : FL α) (v : α) : Bool :=
  containsLoop v l.toList

/-- `basic_iterator` (`main.cpp` lines 139-148): wraps the node pointer
`node_`, null-initialized by the default constructor. -/
structure basic_iterator where
  node : Option Nat := none

/-- A default-constructed iterator: `node_{nullptr}`. -/
def iterDefault : basic_iterator := {}

/-- `operator==` on iterators: `a.node_ == b.node_`. -/
def iterEq (a b : basic_iterator) : Bool := a.node == b.node

/-- `end()`: `iterator(nullptr)`. -/
def endIt : basic_iterator := ⟨none⟩

/-- `begin()`: `iterator(head_.get())`. -/
def beginIt (l : FL α) : basic_iterator := ⟨l.chain.head?.map Prod.fst⟩

/-- The id of the node following node `id` in the chain (`curr->next`),
`none` when `id` is the last node or not on the chain. -/
def chainNext : List (Nat × α) → Nat → Option Nat
  | [], _ => none
  | (i, _) :: t, id => if i = id then t.head?.map Prod.fst else chainNext t id

/-- The value stored at node `id` (`*pos` for an iterator at that node),
`none` when `id` is not a node of the chain. -/
def chainVal : List (Nat × α) → Nat → Option α
  | [], _ => none
  | (i, x) :: t, id => if i = id then some x else chainVal t id

/-- `valueAt` on the list state. -/
def valueAt (l : FL α) (id : Nat) : Option α := chainVal l.chain id

/-- `operator++` of `main.cpp` (line 144): `node_ = node_->next.get()`.
It dereferences `node_`, so an end iterator has no defined successor:
that case yields `none` (undefined). -/
def incMain (l : FL α) (it : basic_iterator) : Option basic_iterator :=
  match it.node with
  | none => none
  | some i => some ⟨chainNext l.chain i⟩

/-- `operator++` of `part_000` (line 50):
`node_ = node_ ? node_->next : nullptr` — guarded, total: an end iterator
stays at the end position. -/
def incP0 (l : FL α) (it : basic_iterator) : basic_iterator :=
  match it.node with
  | none => ⟨none⟩
  | some i => ⟨chainNext l.chain i⟩

/-- `remove(iterator pos)` (`main.cpp` lines 108-112, `part_000` line 85):
`if (pos == end()) return false; return remove(*pos);`.  `pos == end()`
is exactly `node_ == nullptr`; reading `*pos` on a node not on the chain
(a dangling iterator) is undefined, modelled by `none`. -/
def removeIt [DecidableEq α] (l : FL α) (pos : basic_iterator) : Option (Bool × FL α) :=
  match pos.node with
  | none => some (false, l)
  | some id => (l.valueAt id).map l.remove

/-- The demonstration list of `main` (`main.cpp` lines 188-205 and the
spec's §8 examples), with values abstracted to their ids `1,2,1,3,2`. -/
def sample : FL Int := pushAll empty [1, 2, 1, 3, 2]

/- ## Helper lemmas about the removal phases -/

/-- Phase 1 only strips matching nodes: the non-matching nodes of its
result are exactly those of its input. -/
theorem removeHead_filter [DecidableEq α] (v : α) (c : List (Nat × α)) :
    ∀ e, ((removeHead v c e).1).filter (fun p => if p.2 = v then false else true)
      = c.filter (fun p => if p.2 = v then false else true) := by
  induction c with
  | nil => intro e; rfl
  | cons q t ih =>
    intro e
    obtain ⟨i, x⟩ := q
    by_cases h : x = v
    · simpa [removeHead, h, List.filter_cons] using ih true
    · simp [removeHead, h, List.filter_cons]

/-- The head of phase 1's result does not match `value`: the
`while (head_ && head_->data == value)` loop only exits on a mismatch. -/
theorem removeHead_headNe [DecidableEq α] (v : α) (c : List (Nat × α)) :
    ∀ e i x t, (removeHead v c e).1 = (i, x) :: t → ¬ x = v := by
  induction c with
  | nil => intro e i x t h; simp [removeHead] at h
  | cons q u ih =>
    intro e i x t h
    obtain ⟨j, y⟩ := q
    by_cases hy : y = v
    · exact ih true i x t (by simpa [removeHead, hy] using h)
    · simp [removeHead, hy] at h
      intro hx
      exact hy (by rw [h.1.2]; exact hx)

/-- Flag conservation for phase 1: the `erased` flag together with the
matches still in the chain account for all matches of the input. -/
theorem removeHead_flag [DecidableEq α] (v : α) (c : List (Nat × α)) :
    ∀ e, ((removeHead v c e).2 || ((removeHead v c e).1).any (fun p => if p.2 = v then true else false))
      = (e || c.any (fun p => if p.2 = v then true else false)) := by
  induction c with
  | nil => intro e; simp [removeHead]
  | cons q t ih =>
    intro e
    obtain ⟨i, x⟩ := q
    by_cases h : x = v
    · simpa [removeHead, h] using ih true
    · simp [removeHead, h]

/-- Phase 2 keeps exactly the nodes after `prev` that do not match. -/
theorem removeWalk_filter [DecidableEq α] (v : α) (rest : List (Nat × α)) :
    ∀ prev e, (removeWalk v prev rest e).1
      = rest.filter (fun p => if p.2 = v then false else true) := by
  induction rest with
  | nil => intro prev e; rfl
  | cons q t ih =>
    intro prev e
    obtain ⟨i, x⟩ := q
    by_cases h : x = v
    · simpa [removeWalk, h, List.filter_cons] using ih prev true
    · simpa [removeWalk, h, List.filter_cons] using ih (i, x) e

/-- Phase 2's final `prev` — the value written to `tail_` — is the last
node of the surviving chain headed by the initial `prev`. -/
theorem removeWalk_last [DecidableEq α] (v : α) (rest : List (Nat × α)) :
    ∀ prev e, ((prev :: (removeWalk v prev rest e).1).getLast?).map Prod.fst
      = some (removeWalk v prev rest e).2.1 := by
  induction rest with
  | nil => intro prev e; simp [removeWalk]
  | cons q t ih =>
    intro prev e
    obtain ⟨i, x⟩ := q
    by_cases h : x = v
    · simpa [removeWalk, h] using ih prev true
    · simpa [removeWalk, h, List.getLast?_cons_cons] using ih (i, x) e

/-- Phase 2's `erased` flag accumulates exactly the matches it meets. -/
theorem removeWalk_flag [DecidableEq α] (v : α) (rest : List (Nat × α)) :
    ∀ prev e, (removeWalk v prev rest e).2.2
      = (e || rest.any (fun p => if p.2 = v then true else false)) := by
  induction rest with
  | nil => intro prev e; simp [removeWalk]
  | cons q t ih =>
    intro prev e
    obtain ⟨i, x⟩ := q
    by_cases h : x = v
    · simpa [removeWalk, h] using ih prev true
    · simpa [removeWalk, h] using ih (i, x) e

/-- `part_000` phase 2 keeps the same survivors as `main.cpp` phase 2. -/
theorem removeWalkP0_filter [DecidableEq α] (v : α) (rest : List (Nat × α)) :
    ∀ prev tl e, (removeWalkP0 v prev rest tl e).1
      = rest.filter (fun p => if p.2 = v then false else true) := by
  induction rest with
  | nil => intro prev tl e; rfl
  | cons q t ih =>
    intro prev tl e
    obtain ⟨i, x⟩ := q
    by_cases h : x = v
    · simpa [removeWalkP0, h, List.filter_cons] using ih prev (if some i = tl then some prev.1 else tl) true
    · simpa [removeWalkP0, h, List.filter_cons] using ih (i, x) tl e

/-- `part_000` phase 2 computes the same `erased` flag. -/
theorem removeWalkP0_flag [DecidableEq α] (v : α) (rest : List (Nat × α)) :
    ∀ prev tl e, (removeWalkP0 v prev rest tl e).2.2
      = (e || rest.any (fun p => if p.2 = v then true else false)) := by
  induction rest with
  | nil => intro prev tl e; simp [removeWalkP0]
  | cons q t ih =>
    intro prev tl e
    obtain ⟨i, x⟩ := q
    by_cases h : x = v
    · simpa [removeWalkP0, h] using ih prev (if some i = tl then some prev.1 else tl) true
    · simpa [removeWalkP0, h] using ih (i, x) tl e

/-- Mapping values out of a pair-level filter by value. -/
theorem map_snd_filter [DecidableEq α] (v : α) (c : List (Nat × α)) :
    (c.filter (fun p => if p.2 = v then false else true)).map Prod.snd
      = (c.map Prod.snd).filter (fun x => if x = v then false else true) := by
  induction c with
  | nil => rfl
  | cons q t ih =>
    obtain ⟨i, x⟩ := q
    by_cases h : x = v <;> simpa [List.filter_cons, h] using ih

/-- The chain after `main.cpp` `remove(value)`: exactly the nodes whose
value differs from `value`, in their original order. -/
theorem remove_chain [DecidableEq α] (l : FL α) (v : α) :
    (l.remove v).2.chain = l.chain.filter (fun p => if p.2 = v then false else true) := by
  unfold remove
  rcases hrh : removeHead v l.chain false with ⟨c1, e1⟩
  have hf := removeHead_filter v l.chain false
  rw [hrh] at hf
  cases c1 with
  | nil => simpa using hf.symm
  | cons q t =>
    obtain ⟨i, x⟩ := q
    have hx : ¬ x = v := removeHead_headNe v l.chain false i x t (by rw [hrh])
    simp only []
    rw [removeWalk_filter, ← hf, List.filter_cons]
    simp [hx]

/-- `main.cpp` `remove(value)` re-establishes the tail invariant
unconditionally: `tail_` is rewritten to the last surviving node (or
nulled when the chain empties). -/
theorem remove_tailInv [DecidableEq α] (l : FL α) (v : α) :
    tailInv (l.remove v).2 := by
  unfold remove
  rcases hrh : removeHead v l.chain false with ⟨c1, e1⟩
  cases c1 with
  | nil => simp [tailInv]
  | cons q t =>
    obtain ⟨i, x⟩ := q
    have := removeWalk_last v t (i, x) e1
    simp only [tailInv]
    exact this.symm

/-- The `erased` flag of `main.cpp` `remove(value)`: set exactly when the
chain held a matching node. -/
theorem remove_flag [DecidableEq α] (l : FL α) (v : α) :
    (l.remove v).1 = l.chain.any (fun p => if p.2 = v then true else false) := by
  unfold remove
  rcases hrh : removeHead v l.chain false with ⟨c1, e1⟩
  have hflag := removeHead_flag v l.chain false
  rw [hrh] at hflag
  cases c1 with
  | nil => simpa using hflag
  | cons q t =>
    obtain ⟨i, x⟩ := q
    have hx : ¬ x = v := removeHead_headNe v l.chain false i x t (by rw [hrh])
    simp only []
    rw [removeWalk_flag]
    simpa [hx] using hflag

/-- The chain after `part_000` `remove(value)`: the same survivors. -/
theorem removeP0_chain [DecidableEq α] (l : FL α) (v : α) :
    (l.removeP0 v).2.chain = l.chain.filter (fun p => if p.2 = v then false else true) := by
  unfold removeP0
  rcases hrh : removeHead v l.chain false with ⟨c1, e1⟩
  have hf := removeHead_filter v l.chain false
  rw [hrh] at hf
  cases c1 with
  | nil => simpa using hf.symm
  | cons q t =>
    obtain ⟨i, x⟩ := q
    have hx : ¬ x = v := removeHead_headNe v l.chain false i x t (by rw [hrh])
    simp only []
    rw [removeWalkP0_filter, ← hf, List.filter_cons]
    simp [hx]

/-- The `erased` flag of `part_000` `remove(value)` agrees. -/
theorem removeP0_flag [DecidableEq α] (l : FL α) (v : α) :
    (l.removeP0 v).1 = l.chain.any (fun p => if p.2 = v then true else false) := by
  unfold removeP0
  rcases hrh : removeHead v l.chain false with ⟨c1, e1⟩
  have hflag := removeHead_flag v l.chain false
  rw [hrh] at hflag
  cases c1 with
  | nil => simpa using hflag
  | cons q t =>
    obtain ⟨i, x⟩ := q
    have hx : ¬ x = v := removeHead_headNe v l.chain false i x t (by rw [hrh])
    simp only []
    rw [removeWalkP0_flag]
    simpa [hx] using hflag

/-- `main.cpp` `remove(value)` at the element level. -/
theorem remove_toList [DecidableEq α] (l : FL α) (v : α) :
    (l.remove v).2.toList = l.toList.filter (fun x => if x = v then false else true) := by
  show ((l.remove v).2.chain).map Prod.snd = _
  rw [remove_chain, map_snd_filter]
  rfl

/-- `part_000` `remove(value)` at the element level. -/
theorem removeP0_toList [DecidableEq α] (l : FL α) (v : α) :
    (l.removeP0 v).2.toList = l.toList.filter (fun x => if x = v then false else true) := by
  show ((l.removeP0 v).2.chain).map Prod.snd = _
  rw [removeP0_chain, map_snd_filter]
  rfl

/-- A pair-level match exists iff the value occurs in the element list. -/
theorem any_match_iff [DecidableEq α] (v : α) (c : List (Nat × α)) :
    (c.any (fun p => if p.2 = v then true else false) = true) ↔ v ∈ c.map Prod.snd := by
  rw [List.any_eq_true]
  constructor
  · rintro ⟨p, hp, hm⟩
    have : p.2 = v := by by_contra hne; simp [hne] at hm
    exact this ▸ List.mem_map_of_mem Prod.snd hp
  · intro hv
    rcases List.mem_map.mp hv with ⟨p, hp, hpv⟩
    exact ⟨p, hp, by simp [hpv]⟩

/- ## push_back, clear, copy -/

/-- `push_back` appends the new value after all existing elements. -/
theorem push_toList (l : FL α) (v : α) : (l.push v).toList = l.toList ++ [v] := by
  simp [push, toList]

/-- A run of `push_back` calls appends the values in call order. -/
theorem pushAll_toList (vs : List α) : ∀ l : FL α, (pushAll l vs).toList = l.toList ++ vs := by
  induction vs with
  | nil => intro l; simp [pushAll]
  | cons v t ih =>
    intro l
    show (pushAll (l.push v) t).toList = _
    rw [ih, push_toList]
    simp

/-- `push_back` establishes the tail invariant unconditionally: the fresh
node is linked last and `tail_` set to it. -/
theorem push_tailInv (l : FL α) (v : α) : tailInv (l.push v) := by
  simp [push, tailInv, List.getLast?_concat]

/-- A run of `push_back` calls preserves the tail invariant. -/
theorem pushAll_tailInv (vs : List α) : ∀ l : FL α, tailInv l → tailInv (pushAll l vs) := by
  induction vs with
  | nil => intro l h; exact h
  | cons v t ih => intro l _; exact ih (l.push v) (push_tailInv l v)

/-- Node ids allocated by a run of `push_back` calls: consecutive ids from
the allocator counter, after all existing ids. -/
theorem pushAll_ids (vs : List α) : ∀ l : FL α,
    (pushAll l vs).ids = l.ids ++ List.range' l.fresh vs.length := by
  induction vs with
  | nil => intro l; simp [pushAll]
  | cons v t ih =>
    intro l
    show (pushAll (l.push v) t).ids = _
    rw [ih]
    simp [push, ids, List.range'_succ]

/-- The recursive teardown of `head_.reset()` nests one destructor frame
per node. -/
theorem resetFrames_eq_length (c : List (Nat × α)) : resetFrames c = c.length := by
  induction c with
  | nil => rfl
  | cons q t ih => simp [resetFrames, ih]

/-- The `part_000` clear loop frees every node. -/
theorem clearLoop_eq_nil (c : List (Nat × α)) : clearLoop c = ([] : List (Nat × α)) := by
  induction c with
  | nil => rfl
  | cons q t ih => simpa [clearLoop] using ih

/-- Scanning the projected values equals scanning the pairs. -/
theorem any_map_snd (c : List (Nat × α)) (p : α → Bool) :
    (c.map Prod.snd).any p = c.any (fun q => p q.2) := by
  induction c with
  | nil => rfl
  | cons q t ih => simp [ih]

/-- The `contains` loop is a linear scan for the value. -/
theorem containsLoop_eq_any [DecidableEq α] (v : α) (xs : List α) :
    containsLoop v xs = xs.any (fun x => if x = v then true else false) := by
  induction xs with
  | nil => rfl
  | cons x t ih =>
    by_cases h : x = v <;> simp [containsLoop, h, ih]

/- ## Iterator support -/

/-- On a chain with distinct node ids, the successor of the last node is
absent: advancing an iterator off the last node reaches the end position. -/
theorem chainNext_getLast (c : List (Nat × α)) :
    ∀ p : Nat × α, (c.map Prod.fst).Nodup → c.getLast? = some p →
      chainNext c p.1 = none := by
  induction c with
  | nil => intro p _ h; simp at h
  | cons q t ih =>
    intro p hnd hlast
    cases t with
    | nil =>
      simp at hlast
      subst hlast
      simp [chainNext]
    | cons r u =>
      rw [List.getLast?_cons_cons] at hlast
      rcases List.getLast?_eq_some_iff.mp hlast with ⟨ys, hys⟩
      have hpmem : p ∈ r :: u := by rw [hys]; exact List.mem_append_right ys (by simp)
      have hnotin : ¬ q.1 ∈ (r :: u).map Prod.fst := (List.nodup_cons.mp hnd).1
      have hne : ¬ q.1 = p.1 := by
        intro he
        exact hnotin (he ▸ List.mem_map_of_mem Prod.fst hpmem)
      show chainNext (q :: r :: u) p.1 = none
      rcases q with ⟨j, y⟩
      simpa [chainNext, hne] using ih p (List.nodup_cons.mp hnd).2 hlast

/- ## The claims -/

/-- C1 (amended): in the `main.cpp` and `part_000` variants, `remove(value)`
removes every element equal to `value` under the element equality and keeps
the surviving elements in their original relative order; on [1,2,1,3,2],
`remove(2)` yields [1,1,3] and a following `remove(1)` yields [3].  The
`part_001` variant instead removes only the first matching element. -/
theorem remove_removes_all_matches :
    (∀ (β : Type) [DecidableEq β] (l : FL β) (v : β),
        (l.remove v).2.toList = l.toList.filter (fun x => if x = v then false else true)
        ∧ (l.removeP0 v).2.toList = l.toList.filter (fun x => if x = v then false else true))
    ∧ (sample.remove 2).2.toList = [1, 1, 3]
    ∧ (((sample.remove 2).2).remove 1).2.toList = [3] := by
  refine ⟨fun β _ l v => ⟨remove_toList l v, removeP0_toList l v⟩, by decide, by decide⟩

/-- C1 counterexample: the `part_001` variant's `remove(2)` on [1,2,1,3,2]
yields [1,1,3,2] — the later element equal to 2 survives, refuting
"removes every element that compares equal to v" for that variant. -/
theorem remove1_keeps_later_match :
    (sample.remove1 2).2.toList = [1, 1, 3, 2]
    ∧ (2 : Int) ∈ (sample.remove1 2).2.toList
    ∧ ¬ (sample.remove1 2).2.toList = [1, 1, 3] := by
  refine ⟨by decide, by decide, by decide⟩

/-- C2: `remove(iterator)` returns false and does nothing at the end
position (a default-constructed iterator included); otherwise it reads the
value `pos` denotes and delegates to `remove(value)`, removing all matching
elements; on [1,2,1,3,2] with `pos` at the first element it yields
[2,3,2]. -/
theorem removeIt_delegates :
    (∀ l : FL Int, l.removeIt endIt = some (false, l) ∧ l.removeIt iterDefault = some (false, l))
    ∧ (∀ (β : Type) [DecidableEq β] (l : FL β) (id : Nat) (v : β),
        l.valueAt id = some v → l.removeIt ⟨some id⟩ = some (l.remove v))
    ∧ (sample.removeIt (beginIt sample)).map (fun r => (r.1, r.2.toList)) = some (true, [2, 3, 2]) := by
  refine ⟨fun l => ⟨rfl, rfl⟩, fun β _ l id v h => ?_, by decide⟩
  simp [removeIt, h]

/-- C2 witness: the delegation clause at the sample list's first node,
which holds value 1. -/
theorem removeIt_delegates_witness :
    sample.removeIt ⟨some 0⟩ = some (sample.remove 1) :=
  removeIt_delegates.2.1 Int sample 0 1 rfl

/-- C3: the tail invariant — `tail_` null iff `head_` null, otherwise
`tail_` denotes the unique last node — is (re-)established by push_back,
remove-by-value, clear (both forms), copy and the `part_000` move; but the
defaulted move of `main.cpp` leaves the moved-from list with a null
`head_` and a dangling non-null `tail_`, violating it. -/
theorem tailInv_per_operation :
    (∀ (l : FL Int) (v : Int),
        tailInv (l.push v) ∧ tailInv (l.remove v).2 ∧ tailInv l.clear ∧ tailInv l.clearIter
        ∧ (tailInv l → tailInv (moveCtorP0 l).1 ∧ tailInv (moveCtorP0 l).2))
    ∧ (∀ (src : FL Int) (base : Nat), tailInv (copyCtor src base))
    ∧ tailInv (empty : FL Int)
    ∧ ¬ tailInv (moveCtorMain (push empty (1 : Int))).2 := by
  refine ⟨fun l v => ⟨push_tailInv l v, remove_tailInv l v, ?_, ?_, fun h => ⟨h, ?_⟩⟩,
    fun src base => ?_, ?_, ?_⟩
  · simp [clear, tailInv]
  · simp [clearIter, tailInv, clearLoop_eq_nil]
  · simp [moveCtorP0, tailInv]
  · exact pushAll_tailInv _ _ (by simp [empty, tailInv])
  · simp [empty, tailInv]
  · simp [moveCtorMain, tailInv, push, empty]

/-- C4: the `part_000` move transfers the chain in order and leaves the
source empty and valid with head and tail both absent, and its identity
guard makes self-move-assignment a no-op; the defaulted `main.cpp` move
transfers the chain but leaves the source's `tail_` still set — the source
is NOT left with both pointers absent (shown at [1,2]). -/
theorem move_transfer :
    (∀ a : FL Int, (moveCtorP0 a).1.toList = a.toList ∧ (moveCtorP0 a).1.tail = a.tail
        ∧ (moveCtorP0 a).2.chain = [] ∧ (moveCtorP0 a).2.tail = none)
    ∧ (∀ dst src : FL Int, (moveAssignP0 dst src false).1.toList = src.toList
        ∧ (moveAssignP0 dst src false).2.chain = [] ∧ (moveAssignP0 dst src false).2.tail = none
        ∧ moveAssignP0 dst src true = (dst, src))
    ∧ (moveCtorMain (pushAll empty [(1 : Int), 2])).1.toList = [1, 2]
    ∧ (moveCtorMain (pushAll empty [(1 : Int), 2])).2.chain = []
    ∧ (moveCtorMain (pushAll empty [(1 : Int), 2])).2.tail = some 1 := by
  exact ⟨fun a => ⟨rfl, rfl, rfl, rfl⟩, fun dst src => ⟨rfl, rfl, rfl, rfl⟩, by decide, rfl, rfl⟩

/-- C5: `clear()` empties the chain and nulls both pointers in every
variant, and `part_000`'s explicit loop reaches the same state; but the
`main.cpp` / `part_001` teardown (`head_.reset()`) releases the chain
through the recursive Node destructor chain, nesting one frame per node —
its depth grows with the list length instead of being an iterative loop. -/
theorem clear_empties_and_reset_recurses (vs : List Int) :
    resetFrames (pushAll empty vs).chain = vs.length
    ∧ (clear (pushAll empty vs)).chain = [] ∧ (clear (pushAll empty vs)).tail = none
    ∧ clearIter (pushAll empty vs) = clear (pushAll empty vs) := by
  refine ⟨?_, rfl, rfl, ?_⟩
  · rw [resetFrames_eq_length]
    have h1 : (pushAll empty vs).chain.length = (pushAll empty vs).toList.length := by
      simp [toList]
    rw [h1, pushAll_toList vs empty]
    rfl
  · simp [clearIter, clear, clearLoop_eq_nil]

/-- C6: appending v1..vn in order to an empty list makes iteration yield
exactly v1..vn, and push_back only appends — it never changes the relative
order of the elements already present. -/
theorem append_preserves_order (β : Type) (vs : List β) (l : FL β) (v : β) :
    (pushAll empty vs).toList = vs ∧ (l.push v).toList = l.toList ++ [v] := by
  refine ⟨?_, push_toList l v⟩
  rw [pushAll_toList vs empty]
  rfl

/-- C7: `remove(value)` returns true iff at least one element was removed,
i.e. iff the value occurs (agreeing with `contains`), and when no element
equals the value it returns false with the element sequence exactly
unchanged — not-found is a boolean result, not a failure. -/
theorem remove_result_not_found (β : Type) [DecidableEq β] (l : FL β) (v : β) :
    (l.remove v).1 = containsV l v
    ∧ ((l.remove v).1 = true ↔ v ∈ l.toList)
    ∧ (¬ v ∈ l.toList → (l.remove v).2.toList = l.toList) := by
  refine ⟨?_, ?_, ?_⟩
  · rw [remove_flag, containsV, containsLoop_eq_any, toList, any_map_snd]
  · rw [remove_flag]
    exact any_match_iff v l.chain
  · intro hnot
    rw [remove_toList]
    apply List.filter_eq_self.mpr
    intro a ha
    have hne : ¬ a = v := fun h => hnot (h ▸ ha)
    simp [hne]

/-- C7 witness: removing the absent value 2 from [1,3] leaves the contents
exactly unchanged. -/
theorem remove_result_not_found_witness :
    (remove (pushAll empty [(1 : Int), 3]) 2).2.toList = (pushAll empty [(1 : Int), 3]).toList :=
  (remove_result_not_found Int (pushAll empty [(1 : Int), 3]) 2).2.2 (by decide)

/-- C8: copying yields the same element values in the same order with no
node shared with the source (every destination node is a fresh
allocation), so mutations on either list touch only its own nodes; and
self-assignment, detected by identity, is a no-op. -/
theorem copy_independence (src : FL Int) (base : Nat)
    (hb : ∀ id ∈ src.ids, id < base) :
    (copyCtor src base).toList = src.toList
    ∧ (∀ id ∈ (copyCtor src base).ids, ¬ id ∈ src.ids)
    ∧ (∀ (dst : FL Int) (b : Nat), copyAssign dst src true b = dst
        ∧ (copyAssign dst src false b).toList = src.toList) := by
  refine ⟨?_, ?_, fun dst b => ⟨rfl, ?_⟩⟩
  · rw [copyCtor, pushAll_toList]
    rfl
  · intro id hid hmem
    have hids : (copyCtor src base).ids = List.range' base src.toList.length := by
      rw [copyCtor, pushAll_ids]
      rfl
    rw [hids] at hid
    have hge : base ≤ id := (List.mem_range'_1.mp hid).1
    exact absurd (hb id hmem) (by omega)
  · show (pushAll ⟨[], none, b⟩ src.toList).toList = src.toList
    rw [pushAll_toList]
    rfl

/-- C8 witness: copying [5,6] (nodes 0 and 1) with the allocator at 2
reproduces the contents on disjoint nodes. -/
theorem copy_independence_witness :
    (copyCtor (pushAll empty [(5 : Int), 6]) 2).toList = (pushAll empty [(5 : Int), 6]).toList :=
  (copy_independence (pushAll empty [(5 : Int), 6]) 2 (by decide)).1

/-- C9: a default-constructed iterator denotes the end position and equals
`end()`; iterator equality is node identity, so any two end-position
iterators are equal; and advancing off the last node of a chain with
distinct node ids reaches the end position. -/
theorem iterator_equality (l : FL Int) (p : Nat × Int)
    (h1 : l.ids.Nodup) (h2 : l.chain.getLast? = some p) :
    iterDefault = endIt
    ∧ (∀ a b : basic_iterator, iterEq a b = true ↔ a.node = b.node)
    ∧ iterEq iterDefault endIt = true
    ∧ incMain l ⟨some p.1⟩ = some endIt := by
  refine ⟨rfl, fun a b => ?_, rfl, ?_⟩
  · simp [iterEq]
  · have h := chainNext_getLast l.chain p h1 h2
    simp [incMain, endIt, h]

/-- C9 witness: instantiated on the two-element list [7,8] whose last node
is node 1. -/
theorem iterator_equality_witness :
    iterDefault = endIt
    ∧ (∀ a b : basic_iterator, iterEq a b = true ↔ a.node = b.node)
    ∧ iterEq iterDefault endIt = true
    ∧ incMain (pushAll empty [(7 : Int), 8]) ⟨some 1⟩ = some endIt :=
  iterator_equality (pushAll empty [(7 : Int), 8]) (1, 8) (by decide) (by decide)

/-- C10: in the `part_000` variant, `operator++` guards the null case, so
incrementing an end-position iterator is total and leaves it at the end
position; the `main.cpp` variant has no defined result there. -/
theorem incP0_end_stays_end (l : FL Int) :
    incP0 l endIt = endIt ∧ incP0 l iterDefault = endIt ∧ incMain l endIt = none :=
  ⟨rfl, rfl, rfl⟩

end FL

end FLModel
